import Mathlib

/-!
Shallow embedding of `src/inference/runner.py` (repository `moe-experiments`).

The repository instruments Mixture-of-Experts language models during inference
and records, per routing layer, which experts each token was routed to.  The
embedding models:

* the accumulator `activated_experts` (a Python `defaultdict(list)` mapping a
  layer-name string to the list of selected-expert index tensors appended by
  successive forward passes) as an insertion-ordered association list;
* the Mixtral extraction pipeline (`MixtralRunner.__call__`, runner.py:115-139):
  per returned router-logit tensor, `F.softmax(..., dim=1, dtype=torch.float)`
  followed by `torch.topk(..., num_experts_per_tok, dim=-1)`, appended under
  the key `f"layer_{i}.router"`;
* the constructors `OpenMoERunner.__init__` / `MixtralRunner.__init__` and the
  factory `MoERunner.from_name` together with their side-effect traces (weight
  loading, tokenizer loading, pad-token rebinding, hook attachment);
* the Python attribute semantics of the class-level `activated_experts`
  attribute of `MoERunner` (runner.py:28), which `MixtralRunner` never rebinds
  on the instance, so that all `MixtralRunner` instances share one accumulator.

Numeric values are rationals.  The exponential inside `torch.softmax` is a
transcendental; it is modelled by the computable strictly increasing positive
function `qexp`, which preserves everything the downstream top-k selection
observes (order and positivity of the weights).  `torch.topk` is modelled as
sorting by value descending with ties broken by the smaller index, which is
the deterministic behaviour of the primitive on a given input.
-/

/-- Dtype tags for the torch dtypes appearing in the source
(`torch.float16` for the loaded weights, `torch.float` = float32 passed to
`F.softmax`). -/
inductive DType
  | float16
  | float32
deriving DecidableEq, Repr

/-- A 2-D tensor as used at the capture site: rows are tokens
(`batch_size * sequence_length` flattened), columns are experts, together with
a dtype tag. -/
structure Tensor2 where
  data : List (List ℚ)
  dtype : DType
deriving DecidableEq, Repr

/-- Computable strictly-increasing positive surrogate for the exponential used
by `torch.softmax`; order and positivity are the only properties of `exp` the
downstream `torch.topk` selection observes. -/
def qexp (x : ℚ) : ℚ := if 0 ≤ x then x + 1 else 1 / (1 - x)

/-- Softmax of one row (one token's scores over the experts):
`qexp xᵢ / Σⱼ qexp xⱼ`. -/
def softmaxRow (xs : List ℚ) : List ℚ :=
  xs.map (fun x => qexp x / (xs.map qexp).sum)

/-- Embedding of `F.softmax(t, dim=1, dtype=d)` on a (tokens × experts)
tensor: softmax along the expert (inner) dimension, the result carrying the
requested dtype (torch casts the input to `d` and computes in it). -/
def softmaxT (t : Tensor2) (d : DType) : Tensor2 :=
  ⟨t.data.map softmaxRow, d⟩

/-- The total preorder used by the embedded `torch.topk`: value descending,
ties broken by the smaller index. -/
def topkLE (a b : ℕ × ℚ) : Prop :=
  b.2 < a.2 ∨ (a.2 = b.2 ∧ a.1 ≤ b.1)

instance topkLE.decRel : DecidableRel topkLE := fun a b =>
  inferInstanceAs (Decidable (b.2 < a.2 ∨ (a.2 = b.2 ∧ a.1 ≤ b.1)))

instance topkLE.total : IsTotal (ℕ × ℚ) topkLE where
  total a b := by
    rcases lt_trichotomy a.2 b.2 with h | h | h
    · exact Or.inr (Or.inl h)
    · rcases Nat.le_total a.1 b.1 with h1 | h1
      · exact Or.inl (Or.inr ⟨h, h1⟩)
      · exact Or.inr (Or.inr ⟨h.symm, h1⟩)
    · exact Or.inl (Or.inl h)

instance topkLE.trans : IsTrans (ℕ × ℚ) topkLE where
  trans a b c hab hbc := by
    rcases hab with h1 | ⟨h1, h1'⟩ <;> rcases hbc with h2 | ⟨h2, h2'⟩
    · exact Or.inl (h2.trans h1)
    · exact Or.inl (h2 ▸ h1)
    · exact Or.inl (h1 ▸ h2)
    · exact Or.inr ⟨h1.trans h2, h1'.trans h2'⟩

/-- Embedding of the index component of `torch.topk(xs, k, dim=-1)` on one
row: the indices of the `k` largest entries, in descending order of value,
ties resolved to the smaller index. -/
def topkRow (k : ℕ) (xs : List ℚ) : List ℕ :=
  ((List.insertionSort topkLE xs.enum).take k).map Prod.fst

/-- A batched selected-experts index tensor (rows are tokens, each row the
`k` selected expert indices); the atomic unit appended to the record. -/
abbrev IndexTensor := List (List ℕ)

/-- `torch.topk` index output over a whole (tokens × experts) tensor. -/
def topkT (k : ℕ) (t : Tensor2) : IndexTensor :=
  t.data.map (topkRow k)

/-- The per-layer selection derived by `MixtralRunner.__call__` from one
layer's router logits (runner.py:132-135): softmax over the expert dimension
in float32, then top-k indices. -/
def deriveSelected (k : ℕ) (t : Tensor2) : IndexTensor :=
  topkT k (softmaxT t DType.float32)

/-- The key string `f"layer_{i}.router"` used by `MixtralRunner.__call__`
(runner.py:136). -/
def layerKey (i : ℕ) : String :=
  "layer_" ++ Nat.repr i ++ ".router"

/-- The accumulator `activated_experts` (`defaultdict(list)` from layer name
to the list of index tensors appended across calls), modelled as an
insertion-ordered association list with unique keys. -/
abbrev Record := List (String × List IndexTensor)

/-- The key set (in insertion order) of a record. -/
def recKeys (r : Record) : List String := r.map Prod.fst

/-- Lookup with the `defaultdict(list)` default: a missing key reads as the
empty list. -/
def recGet : Record → String → List IndexTensor
  | [], _ => []
  | p :: r, s => if p.1 = s then p.2 else recGet r s

/-- The effect of `record[s].append(v)` on a `defaultdict(list)`: append to
the entry when the key is present, otherwise insert the key at the end with
the one-element list. -/
def recAppend : Record → String → IndexTensor → Record
  | [], s, v => [(s, [v])]
  | p :: r, s, v =>
      if p.1 = s then (p.1, p.2 ++ [v]) :: r else p :: recAppend r s v

theorem recGet_append_self (r : Record) (s : String) (v : IndexTensor) :
    recGet (recAppend r s v) s = recGet r s ++ [v] := by
  induction r with
  | nil => simp [recAppend, recGet]
  | cons p r ih =>
      by_cases h : p.1 = s
      · simp [recAppend, recGet, h]
      · simp [recAppend, recGet, h, ih]

theorem recGet_append_ne (r : Record) (s s' : String) (v : IndexTensor)
    (h : s' ≠ s) : recGet (recAppend r s v) s' = recGet r s' := by
  have hss : s ≠ s' := Ne.symm h
  induction r with
  | nil => simp [recAppend, recGet, hss]
  | cons p r ih =>
      obtain ⟨ps, pv⟩ := p
      by_cases hp : ps = s
      · subst hp
        simp [recAppend, recGet, hss]
      · simp [recAppend, recGet, hp, ih]

theorem recKeys_nil : recKeys [] = [] := rfl

theorem recKeys_cons (p : String × List IndexTensor) (r : Record) :
    recKeys (p :: r) = p.1 :: recKeys r := rfl

theorem recAppend_cons_of_eq (ps : String) (pv : List IndexTensor) (r : Record)
    (s : String) (v : IndexTensor) (hp : ps = s) :
    recAppend ((ps, pv) :: r) s v = (ps, pv ++ [v]) :: r := by
  simp [recAppend, hp]

theorem recAppend_cons_of_ne (ps : String) (pv : List IndexTensor) (r : Record)
    (s : String) (v : IndexTensor) (hp : ps ≠ s) :
    recAppend ((ps, pv) :: r) s v = (ps, pv) :: recAppend r s v := by
  simp [recAppend, hp]

theorem recKeys_append_of_mem (r : Record) (s : String) (v : IndexTensor)
    (h : s ∈ recKeys r) : recKeys (recAppend r s v) = recKeys r := by
  induction r with
  | nil => exact absurd h (List.not_mem_nil s)
  | cons p r ih =>
      obtain ⟨ps, pv⟩ := p
      by_cases hp : ps = s
      · rw [recAppend_cons_of_eq ps pv r s v hp, recKeys_cons, recKeys_cons]
      · have h' : s ∈ recKeys r := by
          rw [recKeys_cons] at h
          rcases List.mem_cons.mp h with h | h
          · exact absurd h.symm hp
          · exact h
        rw [recAppend_cons_of_ne ps pv r s v hp, recKeys_cons, recKeys_cons, ih h']

theorem recKeys_append_of_not_mem (r : Record) (s : String) (v : IndexTensor)
    (h : s ∉ recKeys r) : recKeys (recAppend r s v) = recKeys r ++ [s] := by
  induction r with
  | nil => simp [recAppend, recKeys]
  | cons p r ih =>
      obtain ⟨ps, pv⟩ := p
      have hp : ps ≠ s := by
        intro hp
        exact h (by rw [recKeys_cons, hp]; exact List.mem_cons_self s (recKeys r))
      have h' : s ∉ recKeys r := by
        intro h'
        exact h (by rw [recKeys_cons]; exact List.mem_cons_of_mem ps h')
      rw [recAppend_cons_of_ne ps pv r s v hp, recKeys_cons, recKeys_cons, ih h',
        List.cons_append]

theorem mem_recKeys_append (r : Record) (s s' : String) (v : IndexTensor)
    (h : s' ∈ recKeys r) : s' ∈ recKeys (recAppend r s v) := by
  by_cases hm : s ∈ recKeys r
  · rw [recKeys_append_of_mem r s v hm]; exact h
  · rw [recKeys_append_of_not_mem r s v hm]; exact List.mem_append_left _ h

theorem self_mem_recKeys_append (r : Record) (s : String) (v : IndexTensor) :
    s ∈ recKeys (recAppend r s v) := by
  by_cases hm : s ∈ recKeys r
  · rw [recKeys_append_of_mem r s v hm]; exact hm
  · rw [recKeys_append_of_not_mem r s v hm]; simp

theorem mem_recKeys_append_elim (r : Record) (s s' : String) (v : IndexTensor)
    (h : s' ∈ recKeys (recAppend r s v)) : s' ∈ recKeys r ∨ s' = s := by
  by_cases hm : s ∈ recKeys r
  · rw [recKeys_append_of_mem r s v hm] at h; exact Or.inl h
  · rw [recKeys_append_of_not_mem r s v hm] at h
    rcases List.mem_append.mp h with h | h
    · exact Or.inl h
    · exact Or.inr (by simpa using h)

/-- The character digits of `n` in base 10 as produced by `Nat.repr`, most
significant first, expressed through `Nat.digits`. -/
def reprDigits (n : ℕ) : List Char :=
  if n = 0 then ['0'] else ((Nat.digits 10 n).map Nat.digitChar).reverse

theorem digitChar_inj_fin :
    ∀ a b : Fin 10, Nat.digitChar a.val = Nat.digitChar b.val → a = b := by
  decide

theorem digitChar_inj_lt (a b : ℕ) (ha : a < 10) (hb : b < 10)
    (h : Nat.digitChar a = Nat.digitChar b) : a = b :=
  congrArg Fin.val (digitChar_inj_fin ⟨a, ha⟩ ⟨b, hb⟩ h)

theorem map_digitChar_inj :
    ∀ l1 l2 : List ℕ, (∀ x ∈ l1, x < 10) → (∀ x ∈ l2, x < 10) →
      l1.map Nat.digitChar = l2.map Nat.digitChar → l1 = l2
  | [], [], _, _, _ => rfl
  | [], _ :: _, _, _, h => by simp at h
  | _ :: _, [], _, _, h => by simp at h
  | a :: l1, b :: l2, h1, h2, h => by
      rw [List.map_cons, List.map_cons] at h
      obtain ⟨hab, hl⟩ := List.cons.inj h
      have hab' := digitChar_inj_lt a b (h1 a (List.mem_cons_self a l1))
        (h2 b (List.mem_cons_self b l2)) hab
      rw [hab', map_digitChar_inj l1 l2
        (fun x hx => h1 x (List.mem_cons_of_mem a hx))
        (fun x hx => h2 x (List.mem_cons_of_mem b hx)) hl]

theorem toDigitsCore_eq_reprDigits :
    ∀ (fuel n : ℕ) (ds : List Char), 0 < fuel → n < 10 ^ fuel →
      Nat.toDigitsCore 10 fuel n ds = reprDigits n ++ ds := by
  intro fuel
  induction fuel with
  | zero => intro n ds h _; exact absurd h (lt_irrefl 0)
  | succ f ih =>
      intro n ds _ hn
      by_cases h0 : n / 10 = 0
      · have hn10 : n < 10 := (Nat.div_eq_zero_iff (by norm_num)).mp h0
        by_cases hz : n = 0
        · subst hz
          have hc : Nat.digitChar 0 = '0' := rfl
          simp [Nat.toDigitsCore, reprDigits, hc]
        · have hdig : Nat.digits 10 n = [n % 10] := by
            rw [Nat.digits_def' (by norm_num : (1:ℕ) < 10) (Nat.pos_of_ne_zero hz), h0,
              Nat.digits_zero]
          rw [reprDigits, if_neg hz, hdig]
          simp [Nat.toDigitsCore, h0]
      · have hz : n ≠ 0 := by
          intro hz; exact h0 (by rw [hz])
        have hf : 0 < f := by
          rcases Nat.eq_zero_or_pos f with rfl | hf
          · rw [pow_one] at hn
            exact absurd ((Nat.div_eq_zero_iff (by norm_num)).mpr hn) h0
          · exact hf
        have hlt : n / 10 < 10 ^ f := by
          rw [Nat.div_lt_iff_lt_mul (by norm_num : (0:ℕ) < 10)]
          calc n < 10 ^ (f + 1) := hn
            _ = 10 ^ f * 10 := by rw [pow_succ]
        have hrec : reprDigits n
            = reprDigits (n / 10) ++ [Nat.digitChar (n % 10)] := by
          have hd := Nat.digits_def' (by norm_num : (1:ℕ) < 10) (Nat.pos_of_ne_zero hz)
          rw [reprDigits, if_neg hz, hd, List.map_cons, List.reverse_cons,
            reprDigits, if_neg h0]
        calc Nat.toDigitsCore 10 (f + 1) n ds
            = Nat.toDigitsCore 10 f (n / 10) (Nat.digitChar (n % 10) :: ds) := by
              simp [Nat.toDigitsCore, h0]
          _ = reprDigits (n / 10) ++ Nat.digitChar (n % 10) :: ds := ih (n / 10) _ hf hlt
          _ = reprDigits n ++ ds := by rw [hrec, List.append_assoc]; rfl

theorem toDigits_eq_reprDigits (n : ℕ) : Nat.toDigits 10 n = reprDigits n := by
  have h1 : n < 10 ^ (n + 1) :=
    lt_of_lt_of_le (Nat.lt_pow_self (by norm_num) n)
      (Nat.pow_le_pow_right (by norm_num) (Nat.le_succ n))
  have h2 := toDigitsCore_eq_reprDigits (n + 1) n [] (Nat.succ_pos n) h1
  simpa [Nat.toDigits] using h2

theorem reprDigits_ne_singleton_zero (n : ℕ) (hn : n ≠ 0) :
    reprDigits n ≠ ['0'] := by
  intro h
  rw [reprDigits, if_neg hn] at h
  have hl : (Nat.digits 10 n).map Nat.digitChar = ['0'] := by
    have := congrArg List.reverse h
    simpa using this
  rcases hd : Nat.digits 10 n with _ | ⟨d, rest⟩
  · rw [hd] at hl; simp at hl
  · rw [hd, List.map_cons] at hl
    obtain ⟨hc, hrest⟩ := List.cons.inj hl
    have hdlt : d < 10 :=
      Nat.digits_lt_base (by norm_num) (by rw [hd]; exact List.mem_cons_self d rest)
    have hd0 : d = 0 := digitChar_inj_lt d 0 hdlt (by norm_num) hc
    have hrest0 : rest = [] := List.map_eq_nil_iff.mp hrest
    have : n = 0 := by
      have := congrArg (Nat.ofDigits 10) hd
      rw [Nat.ofDigits_digits, hd0, hrest0] at this
      simpa [Nat.ofDigits] using this
    exact hn this

theorem reprDigits_inj (m n : ℕ) (h : reprDigits m = reprDigits n) : m = n := by
  by_cases hm : m = 0 <;> by_cases hn : n = 0
  · rw [hm, hn]
  · exfalso
    apply reprDigits_ne_singleton_zero n hn
    rw [← h, hm, reprDigits, if_pos rfl]
  · exfalso
    apply reprDigits_ne_singleton_zero m hm
    rw [h, hn, reprDigits, if_pos rfl]
  · rw [reprDigits, if_neg hm, reprDigits, if_neg hn] at h
    have h2 : (Nat.digits 10 m).map Nat.digitChar
        = (Nat.digits 10 n).map Nat.digitChar := by
      have := congrArg List.reverse h
      simpa using this
    have h3 := map_digitChar_inj _ _
      (fun x hx => Nat.digits_lt_base (by norm_num) hx)
      (fun x hx => Nat.digits_lt_base (by norm_num) hx) h2
    have h4 := congrArg (Nat.ofDigits 10) h3
    rwa [Nat.ofDigits_digits, Nat.ofDigits_digits] at h4

theorem natRepr_data_inj (m n : ℕ)
    (h : (Nat.repr m).data = (Nat.repr n).data) : m = n := by
  have hd : Nat.toDigits 10 m = Nat.toDigits 10 n := by
    simpa [Nat.repr, List.asString] using h
  rw [toDigits_eq_reprDigits, toDigits_eq_reprDigits] at hd
  exact reprDigits_inj m n hd

theorem layerKey_inj (i j : ℕ) (h : layerKey i = layerKey j) : i = j := by
  have hd : "layer_".data ++ ((Nat.repr i).data ++ ".router".data)
      = "layer_".data ++ ((Nat.repr j).data ++ ".router".data) := by
    simpa [layerKey, List.append_assoc] using congrArg String.data h
  exact natRepr_data_inj i j
    (List.append_cancel_right (List.append_cancel_left hd))

theorem layerKey_ne (i j : ℕ) (h : i ≠ j) : layerKey i ≠ layerKey j :=
  fun he => h (layerKey_inj i j he)

theorem length_softmaxRow (xs : List ℚ) : (softmaxRow xs).length = xs.length := by
  simp [softmaxRow]

theorem length_topkRow (k : ℕ) (xs : List ℚ) :
    (topkRow k xs).length = min k xs.length := by
  rw [topkRow, List.length_map, List.length_take,
    (List.perm_insertionSort topkLE xs.enum).length_eq, List.enum_length]

theorem mem_sortPairs_iff (xs : List ℚ) (p : ℕ × ℚ) :
    p ∈ List.insertionSort topkLE xs.enum ↔ xs[p.1]? = some p.2 := by
  rw [(List.perm_insertionSort topkLE xs.enum).mem_iff, List.mem_enum_iff_getElem?]

theorem mem_topkRow_elim {k : ℕ} {xs : List ℚ} {i : ℕ} (h : i ∈ topkRow k xs) :
    ∃ hi : i < xs.length,
      (i, xs.get ⟨i, hi⟩) ∈ (List.insertionSort topkLE xs.enum).take k := by
  rw [topkRow] at h
  obtain ⟨p, hp, hfst⟩ := List.mem_map.mp h
  have hps : xs[p.1]? = some p.2 :=
    (mem_sortPairs_iff xs p).mp (List.mem_of_mem_take hp)
  rw [List.getElem?_eq_some] at hps
  obtain ⟨hlt, hval⟩ := hps
  subst hfst
  refine ⟨hlt, ?_⟩
  have hpe : (p.1, xs.get ⟨p.1, hlt⟩) = p := by
    obtain ⟨p1, p2⟩ := p
    simp only [List.get_eq_getElem] at hval ⊢
    exact congrArg (Prod.mk p1) hval
  rwa [hpe]

theorem mem_topkRow_lt {k : ℕ} {xs : List ℚ} {i : ℕ} (h : i ∈ topkRow k xs) :
    i < xs.length := by
  obtain ⟨hi, _⟩ := mem_topkRow_elim h
  exact hi

theorem nodup_topkRow (k : ℕ) (xs : List ℚ) : (topkRow k xs).Nodup := by
  rw [topkRow]
  have hsub : List.Sublist
      (((List.insertionSort topkLE xs.enum).take k).map Prod.fst)
      ((List.insertionSort topkLE xs.enum).map Prod.fst) :=
    (List.take_sublist k _).map Prod.fst
  have hperm : List.Perm ((List.insertionSort topkLE xs.enum).map Prod.fst)
      (xs.enum.map Prod.fst) :=
    (List.perm_insertionSort topkLE xs.enum).map Prod.fst
  have hnd : ((List.insertionSort topkLE xs.enum).map Prod.fst).Nodup :=
    hperm.nodup_iff.mpr (List.nodup_enum_map_fst xs)
  exact hnd.sublist hsub

theorem topkRow_dominates {k : ℕ} {xs : List ℚ} {i j : ℕ}
    (hi : i ∈ topkRow k xs) (hjlen : j < xs.length) (hj : j ∉ topkRow k xs) :
    ∃ hilen : i < xs.length,
      xs.get ⟨j, hjlen⟩ < xs.get ⟨i, hilen⟩ ∨
        (xs.get ⟨i, hilen⟩ = xs.get ⟨j, hjlen⟩ ∧ i < j) := by
  obtain ⟨hilen, hmem⟩ := mem_topkRow_elim hi
  refine ⟨hilen, ?_⟩
  have hjenum : (j, xs.get ⟨j, hjlen⟩) ∈ List.insertionSort topkLE xs.enum := by
    rw [mem_sortPairs_iff]
    simp [List.getElem?_eq_getElem hjlen]
  have hjdrop : (j, xs.get ⟨j, hjlen⟩) ∈ (List.insertionSort topkLE xs.enum).drop k := by
    have hsplit : (j, xs.get ⟨j, hjlen⟩) ∈
        (List.insertionSort topkLE xs.enum).take k
          ++ (List.insertionSort topkLE xs.enum).drop k := by
      rw [List.take_append_drop]
      exact hjenum
    rcases List.mem_append.mp hsplit with hin | hin
    · exact absurd (List.mem_map.mpr ⟨_, hin, rfl⟩) (by rw [topkRow] at hj; exact hj)
    · exact hin
  have hrel := (List.sorted_insertionSort topkLE xs.enum).rel_of_mem_take_of_mem_drop
    hmem hjdrop
  rcases hrel with hlt | ⟨heq, hle⟩
  · exact Or.inl hlt
  · have hne : i ≠ j := fun he => hj (he ▸ hi)
    exact Or.inr ⟨heq, lt_of_le_of_ne hle hne⟩

/-- The loop of `MixtralRunner.__call__` (runner.py:131-138):
`for i, layer_router in enumerate(outputs.router_logits)` starting at index
`i0`; each iteration appends `deriveSelected` of its layer's logits under the
key `layer_{i}.router`. -/
def processLogitsFrom (k : ℕ) : ℕ → Record → List Tensor2 → Record
  | _, r, [] => r
  | i, r, t :: ts =>
      processLogitsFrom k (i + 1) (recAppend r (layerKey i) (deriveSelected k t)) ts

/-- The full post-processing of one `MixtralRunner.__call__` over
`outputs.router_logits` (the enumeration starts at 0). -/
def mixtralProcessLogits (k : ℕ) (r : Record) (ls : List Tensor2) : Record :=
  processLogitsFrom k 0 r ls

theorem processLogitsFrom_get_other (k i0 : ℕ) (r : Record) (ls : List Tensor2)
    (s : String) (hs : ∀ t, t < ls.length → s ≠ layerKey (i0 + t)) :
    recGet (processLogitsFrom k i0 r ls) s = recGet r s := by
  induction ls generalizing i0 r with
  | nil => rfl
  | cons t ts ih =>
      simp only [processLogitsFrom]
      rw [ih (i0 + 1) _ (fun t' ht' => by
        have := hs (t' + 1) (by simpa using Nat.succ_lt_succ ht')
        rwa [show i0 + (t' + 1) = i0 + 1 + t' from by omega] at this)]
      exact recGet_append_ne r (layerKey i0) s _
        (by have := hs 0 (by simp); rwa [Nat.add_zero] at this)

theorem processLogitsFrom_get_at (k i0 j : ℕ) (r : Record) (ls : List Tensor2)
    (hj : j < ls.length) :
    recGet (processLogitsFrom k i0 r ls) (layerKey (i0 + j))
      = recGet r (layerKey (i0 + j)) ++ [deriveSelected k (ls.get ⟨j, hj⟩)] := by
  induction ls generalizing i0 j r with
  | nil => exact absurd hj (by simp)
  | cons t ts ih =>
      cases j with
      | zero =>
          simp only [processLogitsFrom, Nat.add_zero, List.get_cons_zero]
          rw [processLogitsFrom_get_other k (i0 + 1) _ ts (layerKey i0)
              (fun t' ht' => layerKey_ne i0 (i0 + 1 + t') (by omega)),
            recGet_append_self]
          rfl
      | succ j' =>
          simp only [processLogitsFrom]
          rw [show i0 + (j' + 1) = i0 + 1 + j' from by omega,
            ih (i0 + 1) j' _ (by simpa using hj),
            recGet_append_ne r (layerKey i0) (layerKey (i0 + 1 + j')) _
              (layerKey_ne (i0 + 1 + j') i0 (by omega))]
          rfl

theorem processLogitsFrom_keys_mono (k i0 : ℕ) (r : Record) (ls : List Tensor2)
    (s : String) (h : s ∈ recKeys r) : s ∈ recKeys (processLogitsFrom k i0 r ls) := by
  induction ls generalizing i0 r with
  | nil => exact h
  | cons t ts ih =>
      simp only [processLogitsFrom]
      exact ih (i0 + 1) _ (mem_recKeys_append r (layerKey i0) s _ h)

theorem processLogitsFrom_keys_layer (k i0 j : ℕ) (r : Record) (ls : List Tensor2)
    (hj : j < ls.length) :
    layerKey (i0 + j) ∈ recKeys (processLogitsFrom k i0 r ls) := by
  induction ls generalizing i0 j r with
  | nil => exact absurd hj (by simp)
  | cons t ts ih =>
      simp only [processLogitsFrom]
      cases j with
      | zero =>
          rw [Nat.add_zero]
          exact processLogitsFrom_keys_mono k (i0 + 1) _ ts (layerKey i0)
            (self_mem_recKeys_append r (layerKey i0) _)
      | succ j' =>
          rw [show i0 + (j' + 1) = i0 + 1 + j' from by omega]
          exact ih (i0 + 1) j' _ (by simpa using hj)

theorem processLogitsFrom_keys_stable (k i0 : ℕ) (r : Record) (ls : List Tensor2)
    (h : ∀ j, j < ls.length → layerKey (i0 + j) ∈ recKeys r) :
    recKeys (processLogitsFrom k i0 r ls) = recKeys r := by
  induction ls generalizing i0 r with
  | nil => rfl
  | cons t ts ih =>
      simp only [processLogitsFrom]
      have h0 : layerKey i0 ∈ recKeys r := by
        have := h 0 (by simp)
        rwa [Nat.add_zero] at this
      rw [ih (i0 + 1) _ (fun j hj => by
            rw [recKeys_append_of_mem r _ _ h0]
            have := h (j + 1) (by simpa using Nat.succ_lt_succ hj)
            rwa [show i0 + (j + 1) = i0 + 1 + j from by omega] at this),
        recKeys_append_of_mem r _ _ h0]

theorem processLogitsFrom_keys_elim (k i0 : ℕ) (r : Record) (ls : List Tensor2)
    (s : String) (h : s ∈ recKeys (processLogitsFrom k i0 r ls)) :
    s ∈ recKeys r ∨ ∃ j, j < ls.length ∧ s = layerKey (i0 + j) := by
  induction ls generalizing i0 r with
  | nil => exact Or.inl h
  | cons t ts ih =>
      simp only [processLogitsFrom] at h
      rcases ih (i0 + 1) _ h with h' | ⟨j, hj, hs⟩
      · rcases mem_recKeys_append_elim r (layerKey i0) s _ h' with h'' | h''
        · exact Or.inl h''
        · exact Or.inr ⟨0, by simp, by rw [Nat.add_zero]; exact h''⟩
      · exact Or.inr ⟨j + 1, by simpa using Nat.succ_lt_succ hj,
          by rw [show i0 + (j + 1) = i0 + 1 + j from by omega]; exact hs⟩

/-- Modelled from the spec: the observer side of `set_router_hook`
(`inference/hooks.py`, which is not under `src/`).  Per spec §4.3 the hook
walks the model, attaches a post-computation observer to every router
submodule, and returns a fresh empty accumulator; during one forward pass
each hooked module appends the selected-expert indices extracted from its
output to the accumulator under that module's stable unique key, in module
order, without altering the module's return value.  `obs` lists the
`(key, decision)` pairs produced by the hooked modules during one pass. -/
def hookProcess : Record → List (String × IndexTensor) → Record
  | r, [] => r
  | r, p :: os => hookProcess (recAppend r p.1 p.2) os

theorem hookProcess_get_other (r : Record) (os : List (String × IndexTensor))
    (s : String) (hs : ∀ p ∈ os, s ≠ p.1) :
    recGet (hookProcess r os) s = recGet r s := by
  induction os generalizing r with
  | nil => rfl
  | cons q os ih =>
      simp only [hookProcess]
      rw [ih _ (fun p hp => hs p (List.mem_cons_of_mem q hp))]
      exact recGet_append_ne r q.1 s q.2 (hs q (List.mem_cons_self q os))

theorem hookProcess_get_at (r : Record) (os : List (String × IndexTensor))
    (hnd : (os.map Prod.fst).Nodup) (p : String × IndexTensor) (hp : p ∈ os) :
    recGet (hookProcess r os) p.1 = recGet r p.1 ++ [p.2] := by
  induction os generalizing r with
  | nil => exact absurd hp (List.not_mem_nil p)
  | cons q os ih =>
      simp only [hookProcess]
      rw [List.map_cons, List.nodup_cons] at hnd
      rcases List.mem_cons.mp hp with rfl | hp'
      · rw [hookProcess_get_other _ os p.1 (fun q' hq' heq =>
          hnd.1 (heq ▸ List.mem_map.mpr ⟨q', hq', rfl⟩))]
        exact recGet_append_self r p.1 p.2
      · rw [ih _ hnd.2 hp']
        have hne : p.1 ≠ q.1 := fun heq =>
          hnd.1 (heq ▸ List.mem_map.mpr ⟨p, hp', rfl⟩)
        rw [recGet_append_ne r q.1 p.1 q.2 hne]

theorem hookProcess_keys_mono (r : Record) (os : List (String × IndexTensor))
    (s : String) (h : s ∈ recKeys r) : s ∈ recKeys (hookProcess r os) := by
  induction os generalizing r with
  | nil => exact h
  | cons q os ih =>
      simp only [hookProcess]
      exact ih _ (mem_recKeys_append r q.1 s q.2 h)

theorem hookProcess_keys_key (r : Record) (os : List (String × IndexTensor))
    (p : String × IndexTensor) (hp : p ∈ os) :
    p.1 ∈ recKeys (hookProcess r os) := by
  induction os generalizing r with
  | nil => exact absurd hp (List.not_mem_nil p)
  | cons q os ih =>
      simp only [hookProcess]
      rcases List.mem_cons.mp hp with rfl | hp'
      · exact hookProcess_keys_mono _ os p.1 (self_mem_recKeys_append r p.1 p.2)
      · exact ih _ hp'

theorem hookProcess_keys_stable (r : Record) (os : List (String × IndexTensor))
    (h : ∀ p ∈ os, p.1 ∈ recKeys r) :
    recKeys (hookProcess r os) = recKeys r := by
  induction os generalizing r with
  | nil => rfl
  | cons q os ih =>
      simp only [hookProcess]
      have h0 : q.1 ∈ recKeys r := h q (List.mem_cons_self q os)
      rw [ih _ (fun p hp => by
            rw [recKeys_append_of_mem r _ _ h0]
            exact h p (List.mem_cons_of_mem q hp)),
        recKeys_append_of_mem r _ _ h0]

theorem hookProcess_keys_elim (r : Record) (os : List (String × IndexTensor))
    (s : String) (h : s ∈ recKeys (hookProcess r os)) :
    s ∈ recKeys r ∨ s ∈ os.map Prod.fst := by
  induction os generalizing r with
  | nil => exact Or.inl h
  | cons q os ih =>
      simp only [hookProcess] at h
      rcases ih _ h with h' | h'
      · rcases mem_recKeys_append_elim r q.1 s q.2 h' with h'' | h''
        · exact Or.inl h''
        · exact Or.inr (by rw [List.map_cons, h'']; exact List.mem_cons_self q.1 _)
      · exact Or.inr (by rw [List.map_cons]; exact List.mem_cons_of_mem q.1 h')

theorem mixtralProcessLogits_get_at (k j : ℕ) (r : Record) (ls : List Tensor2)
    (hj : j < ls.length) :
    recGet (mixtralProcessLogits k r ls) (layerKey j)
      = recGet r (layerKey j) ++ [deriveSelected k (ls.get ⟨j, hj⟩)] := by
  have h := processLogitsFrom_get_at k 0 j r ls hj
  rwa [Nat.zero_add] at h

theorem mixtralProcessLogits_get_other (k : ℕ) (r : Record) (ls : List Tensor2)
    (s : String) (hs : ∀ t, t < ls.length → s ≠ layerKey t) :
    recGet (mixtralProcessLogits k r ls) s = recGet r s :=
  processLogitsFrom_get_other k 0 r ls s
    (fun t ht => by rw [Nat.zero_add]; exact hs t ht)

theorem mixtralProcessLogits_keys_mono (k : ℕ) (r : Record) (ls : List Tensor2)
    (s : String) (h : s ∈ recKeys r) : s ∈ recKeys (mixtralProcessLogits k r ls) :=
  processLogitsFrom_keys_mono k 0 r ls s h

theorem mixtralProcessLogits_keys_layer (k j : ℕ) (r : Record) (ls : List Tensor2)
    (hj : j < ls.length) : layerKey j ∈ recKeys (mixtralProcessLogits k r ls) := by
  have h := processLogitsFrom_keys_layer k 0 j r ls hj
  rwa [Nat.zero_add] at h

theorem mixtralProcessLogits_keys_stable (k : ℕ) (r : Record) (ls : List Tensor2)
    (h : ∀ j, j < ls.length → layerKey j ∈ recKeys r) :
    recKeys (mixtralProcessLogits k r ls) = recKeys r :=
  processLogitsFrom_keys_stable k 0 r ls
    (fun j hj => by rw [Nat.zero_add]; exact h j hj)

theorem mixtralProcessLogits_keys_elim (k : ℕ) (r : Record) (ls : List Tensor2)
    (s : String) (h : s ∈ recKeys (mixtralProcessLogits k r ls)) :
    s ∈ recKeys r ∨ ∃ j, j < ls.length ∧ s = layerKey j := by
  rcases processLogitsFrom_keys_elim k 0 r ls s h with h' | ⟨j, hj, hs⟩
  · exact Or.inl h'
  · exact Or.inr ⟨j, hj, by rwa [Nat.zero_add] at hs⟩

/-- The two extraction strategies (the spec's ObserverBased = `OpenMoERunner`,
OutputDerived = `MixtralRunner`). -/
inductive Variant
  | observerBased
  | outputDerived
deriving DecidableEq, Repr

/-- The tokenizer object as far as the runners touch it: the identifier it
was loaded from, `model_max_length`, and the pad/eos special-token slots. -/
structure Tokenizer where
  name : String
  modelMaxLength : ℕ
  padToken : Option String
  eosToken : Option String
deriving DecidableEq, Repr

/-- The model-configuration values the runners read off the loaded model
(`self.model.config`); supplied by the external model provider. -/
structure ModelCfg where
  numExperts : ℕ
  numExpertsPerTok : ℕ
deriving DecidableEq, Repr

/-- Provider side effects performed by the constructors, in program order. -/
inductive Effect
  | loadTokenizer (name : String)
  | loadConfig (name : String)
  | setMoeArgs
  | loadModel (name : String)
  | setPadToken
  | attachRouterHook
deriving DecidableEq, Repr

/-- One fully constructed runner: variant tag, resolved weight-source
identifier, the tokenizer it holds, the loaded model's configuration, and
the selected-experts record its `activated_experts` attribute resolves to. -/
structure RunnerState where
  variant : Variant
  modelName : String
  tokenizer : Tokenizer
  cfg : ModelCfg
  record : Record
deriving Repr

/-- Weight source for `use_quant=True` (runner.py:100). -/
def mixtralQuantName : String := "TheBloke/mixtral-8x7b-v0.1-AWQ"

/-- Weight source for `use_quant=False` (runner.py:102). -/
def mixtralFullName : String := "mistralai/Mixtral-8x7B-v0.1"

/-- The Python default of the `use_quant` keyword of `MixtralRunner.__init__`
(runner.py:98). -/
def mixtralUseQuantDefault : Bool := true

/-- `OpenMoERunner`'s fixed model identifier (runner.py:58). -/
def openMoEModelName : String := "OrionZheng/openmoe-8b-1T"

/-- `OpenMoERunner`'s tokenizer identifier (runner.py:60). -/
def openMoETokenizerName : String := "google/umt5-small"

/-- The weight-source resolution of `MixtralRunner.__init__`
(runner.py:99-102). -/
def mixtralModelName (useQuant : Bool) : String :=
  if useQuant then mixtralQuantName else mixtralFullName

/-- Embedding of `MixtralRunner.__init__` (runner.py:98-113): resolve the
weight source from `use_quant`, load the tokenizer from it, set
`tokenizer.pad_token = tokenizer.eos_token`, then load the model weights.
The returned trace lists the provider effects in program order.
`providerTok` stands for the opaque `AutoTokenizer.from_pretrained` and
`providerCfg` for the loaded model's config.  The record visible through the
new instance is the class-level accumulator (runner.py:28), which is empty in
a fresh process. -/
def mixtralInit (seqLen : ℕ) (useQuant : Bool)
    (providerTok : String → ℕ → Tokenizer) (providerCfg : ModelCfg) :
    RunnerState × List Effect :=
  let name := mixtralModelName useQuant
  let tok0 := providerTok name seqLen
  (⟨Variant.outputDerived, name,
      ⟨tok0.name, tok0.modelMaxLength, tok0.eosToken, tok0.eosToken⟩,
      providerCfg, []⟩,
    [Effect.loadTokenizer name, Effect.setPadToken, Effect.loadModel name])

/-- Embedding of `OpenMoERunner.__init__` (runner.py:57-75): fixed model
identifier, tokenizer from `google/umt5-small`, config load plus the
`set_openmoe_args` override (`inference/utils.py`, external to `src/`,
modelled as an effect), weight load, then `set_router_hook` attachment, which
rebinds `self.activated_experts` to the hook's fresh empty accumulator. -/
def openMoEInit (seqLen : ℕ)
    (providerTok : String → ℕ → Tokenizer) (providerCfg : ModelCfg) :
    RunnerState × List Effect :=
  (⟨Variant.observerBased, openMoEModelName,
      providerTok openMoETokenizerName seqLen, providerCfg, []⟩,
    [Effect.loadTokenizer openMoETokenizerName,
      Effect.loadConfig openMoEModelName, Effect.setMoeArgs,
      Effect.loadModel openMoEModelName, Effect.attachRouterHook])

/-- The factory's failure on an unrecognized architecture name
(runner.py:49 raises; the spec's UnsupportedArchitecture). -/
inductive RunnerError
  | unsupportedArchitecture
deriving DecidableEq, Repr

/-- Embedding of `MoERunner.from_name` (runner.py:41-49): dispatch on the
architecture name.  An unmatched name fails before any provider call, so the
failing branch's effect trace is empty and no runner is produced. -/
def from_name (name : String) (seqLen : ℕ) (useQuant : Bool)
    (providerTok : String → ℕ → Tokenizer) (providerCfg : ModelCfg) :
    List Effect × Except RunnerError RunnerState :=
  if name = "openmoe" then
    let p := openMoEInit seqLen providerTok providerCfg
    (p.2, Except.ok p.1)
  else if name = "mixtral" then
    let p := mixtralInit seqLen useQuant providerTok providerCfg
    (p.2, Except.ok p.1)
  else ([], Except.error RunnerError.unsupportedArchitecture)

/-- Embedding of `MixtralRunner.__call__` (runner.py:115-139): one forward
pass through the external model with `output_router_logits=True` (its
returned `outputs.router_logits` is the `routerLogits` argument), then the
post-processing loop appends one derived selection per layer under
`layer_{i}.router`, and the method returns the full accumulator.  Model name,
tokenizer and config are untouched. -/
def mixtralCall (st : RunnerState) (routerLogits : List Tensor2) :
    RunnerState × Record :=
  let r := mixtralProcessLogits st.cfg.numExpertsPerTok st.record routerLogits
  (⟨st.variant, st.modelName, st.tokenizer, st.cfg, r⟩, r)

/-- Embedding of `OpenMoERunner.__call__` (runner.py:77-90): one forward
pass during which the attached observers append one captured decision per
hooked router module (`obs`, the per-module `(key, decision)` pairs of this
pass, applied by `hookProcess`); the method returns the accumulator. -/
def openMoECall (st : RunnerState) (obs : List (String × IndexTensor)) :
    RunnerState × Record :=
  let r := hookProcess st.record obs
  (⟨st.variant, st.modelName, st.tokenizer, st.cfg, r⟩, r)

/-- `OpenMoERunner.__call__` is decorated `@torch.no_grad()`
(runner.py:77). -/
def openMoECallGradDisabled : Bool := true

/-- On `MixtralRunner.__call__` the `@torch.no_grad()` decorator is commented
out (runner.py:115), so its forward pass runs with gradient tracking
enabled. -/
def mixtralCallGradDisabled : Bool := false

/-- Python attribute-semantics view of several constructed runners in one
process.  `classRecord` is the object bound to the class attribute
`MoERunner.activated_experts` (runner.py:28), created once at class-creation
time; each constructed runner carries its variant and, when and only when its
`__init__` assigned `self.activated_experts`, an instance-attribute record
shadowing the class one.  `MixtralRunner.__init__` performs no such
assignment, so its slot is `none` and attribute lookup falls through to the
shared class record. -/
structure PyWorld where
  classRecord : Record
  runners : List (Variant × Option Record)
deriving Repr

/-- Construct a `MixtralRunner()`: no instance binding of
`activated_experts`. -/
def constructMixtral (w : PyWorld) : PyWorld :=
  ⟨w.classRecord, w.runners ++ [(Variant.outputDerived, none)]⟩

/-- Construct an `OpenMoERunner()`: `__init__` rebinds
`self.activated_experts` to the hook's fresh empty accumulator
(runner.py:75). -/
def constructOpenMoE (w : PyWorld) : PyWorld :=
  ⟨w.classRecord, w.runners ++ [(Variant.observerBased, some [])]⟩

/-- What instance `i`'s attribute lookup `self.activated_experts` resolves
to: the instance attribute when present, else the class attribute. -/
def observedRecord (w : PyWorld) (i : ℕ) : Record :=
  match w.runners.get? i with
  | some (_, some r) => r
  | _ => w.classRecord

/-- Mutate in place the record object that instance `i`'s attribute lookup
resolves to (Python `self.activated_experts[key].append(...)` mutates the
resolved object itself). -/
def mutateThrough (w : PyWorld) (i : ℕ) (f : Record → Record) : PyWorld :=
  match w.runners.get? i with
  | some (v, some r) => ⟨w.classRecord, w.runners.set i (v, some (f r))⟩
  | _ => ⟨f w.classRecord, w.runners⟩

/-- `MixtralRunner.__call__` performed through instance `i` of the
multi-instance world (`k` the config's `num_experts_per_tok`, `ls` the
returned router logits). -/
def mixtralCallWorld (w : PyWorld) (i k : ℕ) (ls : List Tensor2) : PyWorld :=
  mutateThrough w i (fun r => mixtralProcessLogits k r ls)

/-- A concrete router-logit tensor for the witnesses: one token, three
experts, scores 1, 2, 3, in the model's working precision float16. -/
def sampleLogits : Tensor2 := ⟨[[1, 2, 3]], DType.float16⟩

/-- A concrete stand-in for the external tokenizer provider. -/
def sampleProviderTok : String → ℕ → Tokenizer :=
  fun n l => ⟨n, l, none, some "</s>"⟩

/-- A concrete model config (Mixtral-8x7B: 8 experts, 2 per token). -/
def sampleCfg : ModelCfg := ⟨8, 2⟩

/-- A concrete observer capture list for the witnesses: one hooked router
module appending one single-token decision. -/
def sampleObs : List (String × IndexTensor) :=
  [("blocks.0.router", [[0]])]

/-- C1: for the OutputDerived (MixtralRunner) variant, `infer` processes the
returned per-layer router-score tensors in layer order: softmax over the
expert dimension is computed with dtype float32 regardless of the input
tensor's dtype, the top-k highest-weight experts per token are selected with
k the architecture's `num_experts_per_tok` and ties broken by the lowest
expert index, and the resulting index tensor is appended to the record entry
keyed `layer_{i}.router`. -/
theorem C1_outputDerived_pipeline (k : ℕ) (r : Record) (ls : List Tensor2) :
    (∀ t : Tensor2, (softmaxT t DType.float32).dtype = DType.float32)
    ∧ (∀ j, ∀ hj : j < ls.length,
        recGet (mixtralProcessLogits k r ls) (layerKey j)
          = recGet r (layerKey j)
            ++ [topkT k (softmaxT (ls.get ⟨j, hj⟩) DType.float32)])
    ∧ (∀ (xs : List ℚ) (i j : ℕ) (hjl : j < xs.length),
        i ∈ topkRow k xs → j ∉ topkRow k xs →
          ∃ hil : i < xs.length,
            xs.get ⟨j, hjl⟩ < xs.get ⟨i, hil⟩ ∨
              (xs.get ⟨i, hil⟩ = xs.get ⟨j, hjl⟩ ∧ i < j)) := by
  refine ⟨fun t => rfl, ?_, ?_⟩
  · intro j hj
    exact mixtralProcessLogits_get_at k j r ls hj
  · intro xs i j hjl hi hj
    exact topkRow_dominates hi hjl hj

theorem C1_outputDerived_pipeline_witness :
    0 < ([sampleLogits] : List Tensor2).length
    ∧ recGet (mixtralProcessLogits 2 [] [sampleLogits]) (layerKey 0)
        = recGet ([] : Record) (layerKey 0)
          ++ [topkT 2 (softmaxT sampleLogits DType.float32)] :=
  ⟨by decide, (C1_outputDerived_pipeline 2 [] [sampleLogits]).2.1 0 (by decide)⟩

/-- C2: one `infer` call grows every per-layer sequence of the record by
exactly one, for both variants.  For the OutputDerived variant (given that
every existing key is a layer key of the model, as holds for every record a
MixtralRunner builds), each `layer_{j}.router` sequence and hence every
sequence in the resulting record gains exactly one entry; for the
ObserverBased variant (hook keys unique, existing keys hook keys), every
hooked module's sequence and every sequence of the result gains exactly
one entry. -/
theorem C2_record_growth (k : ℕ) (r : Record) (ls : List Tensor2)
    (hkeys : ∀ s ∈ recKeys r, ∃ i, i < ls.length ∧ s = layerKey i)
    (ro : Record) (os : List (String × IndexTensor))
    (hnd : (os.map Prod.fst).Nodup)
    (hkeyso : ∀ s ∈ recKeys ro, s ∈ os.map Prod.fst) :
    (∀ j, j < ls.length →
       (recGet (mixtralProcessLogits k r ls) (layerKey j)).length
         = (recGet r (layerKey j)).length + 1)
    ∧ (∀ s ∈ recKeys (mixtralProcessLogits k r ls),
       (recGet (mixtralProcessLogits k r ls) s).length = (recGet r s).length + 1)
    ∧ (∀ p ∈ os,
       (recGet (hookProcess ro os) p.1).length = (recGet ro p.1).length + 1)
    ∧ (∀ s ∈ recKeys (hookProcess ro os),
       (recGet (hookProcess ro os) s).length = (recGet ro s).length + 1) := by
  have hmix : ∀ j, j < ls.length →
      (recGet (mixtralProcessLogits k r ls) (layerKey j)).length
        = (recGet r (layerKey j)).length + 1 := by
    intro j hj
    rw [mixtralProcessLogits_get_at k j r ls hj, List.length_append]
    rfl
  have hhook : ∀ p ∈ os,
      (recGet (hookProcess ro os) p.1).length = (recGet ro p.1).length + 1 := by
    intro p hp
    rw [hookProcess_get_at ro os hnd p hp, List.length_append]
    rfl
  refine ⟨hmix, ?_, hhook, ?_⟩
  · intro s hs
    rcases mixtralProcessLogits_keys_elim k r ls s hs with h' | ⟨j, hj, rfl⟩
    · obtain ⟨i, hi, rfl⟩ := hkeys s h'
      exact hmix i hi
    · exact hmix j hj
  · intro s hs
    rcases hookProcess_keys_elim ro os s hs with h' | h'
    · obtain ⟨p, hp, rfl⟩ := List.mem_map.mp (hkeyso s h')
      exact hhook p hp
    · obtain ⟨p, hp, rfl⟩ := List.mem_map.mp h'
      exact hhook p hp

theorem C2_record_growth_witness :
    (∀ s ∈ recKeys ([] : Record), ∃ i, i < ([sampleLogits] : List Tensor2).length ∧ s = layerKey i)
    ∧ (sampleObs.map Prod.fst).Nodup
    ∧ (∀ s ∈ recKeys ([] : Record), s ∈ sampleObs.map Prod.fst)
    ∧ ((∀ j, j < ([sampleLogits] : List Tensor2).length →
         (recGet (mixtralProcessLogits 2 [] [sampleLogits]) (layerKey j)).length
           = (recGet ([] : Record) (layerKey j)).length + 1)
      ∧ (∀ s ∈ recKeys (mixtralProcessLogits 2 [] [sampleLogits]),
         (recGet (mixtralProcessLogits 2 [] [sampleLogits]) s).length
           = (recGet ([] : Record) s).length + 1)
      ∧ (∀ p ∈ sampleObs,
         (recGet (hookProcess [] sampleObs) p.1).length
           = (recGet ([] : Record) p.1).length + 1)
      ∧ (∀ s ∈ recKeys (hookProcess [] sampleObs),
         (recGet (hookProcess [] sampleObs) s).length
           = (recGet ([] : Record) s).length + 1)) :=
  ⟨by simp [recKeys], by decide, by simp [recKeys],
    C2_record_growth 2 [] [sampleLogits] (by simp [recKeys]) [] sampleObs
      (by decide) (by simp [recKeys])⟩

/-- C3: the factory `from_name` returns an ObserverBased (hook-path) runner
for "openmoe", an OutputDerived runner for "mixtral", and for every other
name fails with the UnsupportedArchitecture error (realized as the raise at
runner.py:49) with an empty effect trace — no loading side effect and no
partial runner. -/
theorem C3_factory_dispatch (seqLen : ℕ) (uq : Bool)
    (pt : String → ℕ → Tokenizer) (pc : ModelCfg) :
    ((from_name "openmoe" seqLen uq pt pc).2.toOption.map RunnerState.variant
        = some Variant.observerBased)
    ∧ Effect.attachRouterHook ∈ (from_name "openmoe" seqLen uq pt pc).1
    ∧ ((from_name "mixtral" seqLen uq pt pc).2.toOption.map RunnerState.variant
        = some Variant.outputDerived)
    ∧ Effect.attachRouterHook ∉ (from_name "mixtral" seqLen uq pt pc).1
    ∧ (∀ name : String, name ≠ "openmoe" → name ≠ "mixtral" →
        from_name name seqLen uq pt pc
          = ([], Except.error RunnerError.unsupportedArchitecture)) := by
  refine ⟨rfl, ?_, rfl, ?_, ?_⟩
  · show Effect.attachRouterHook ∈ (openMoEInit seqLen pt pc).2
    simp [openMoEInit]
  · show Effect.attachRouterHook ∉ (mixtralInit seqLen uq pt pc).2
    simp [mixtralInit]
  · intro name h1 h2
    simp only [from_name]
    rw [if_neg h1, if_neg h2]

theorem C3_factory_dispatch_witness :
    ("gpt2" : String) ≠ "openmoe" ∧ ("gpt2" : String) ≠ "mixtral"
    ∧ from_name "gpt2" 16 true sampleProviderTok sampleCfg
        = ([], Except.error RunnerError.unsupportedArchitecture) :=
  ⟨by decide, by decide,
    (C3_factory_dispatch 16 true sampleProviderTok sampleCfg).2.2.2.2 "gpt2"
      (by decide) (by decide)⟩

/-- A freshly constructed MixtralRunner (fresh process, so the class-level
accumulator it resolves to is empty). -/
def mixtralSample : RunnerState :=
  (mixtralInit 16 mixtralUseQuantDefault sampleProviderTok sampleCfg).1

/-- C4 counterexample: a freshly constructed MixtralRunner has an empty key
set, and its first `infer` call adds the key `layer_0.router` — so the key
set is not fixed after construction (keys are created lazily by the
`defaultdict` on first append, not at attachment/construction time). -/
theorem C4_keys_fixed_counterexample :
    recKeys (mixtralCall mixtralSample [sampleLogits]).1.record
      ≠ recKeys mixtralSample.record := by
  intro h
  have hk : layerKey 0 ∈ recKeys (mixtralCall mixtralSample [sampleLogits]).1.record :=
    mixtralProcessLogits_keys_layer 2 0 [] [sampleLogits] (by norm_num)
  rw [h] at hk
  exact absurd hk (List.not_mem_nil _)

/-- C4 amended: across repeated `infer` calls the key set never shrinks (no
key is ever removed), and from the first call on it is stable: a second call
over the same layers (same layer count for MixtralRunner; same hooked-module
keys for OpenMoERunner) leaves the key set unchanged. -/
theorem C4_keys_stability_amended (k : ℕ) (r : Record) (ls ls2 : List Tensor2)
    (hlen : ls2.length = ls.length)
    (ro : Record) (os os2 : List (String × IndexTensor))
    (hkeys : os2.map Prod.fst = os.map Prod.fst) :
    (∀ s ∈ recKeys r, s ∈ recKeys (mixtralProcessLogits k r ls))
    ∧ recKeys (mixtralProcessLogits k (mixtralProcessLogits k r ls) ls2)
        = recKeys (mixtralProcessLogits k r ls)
    ∧ (∀ s ∈ recKeys ro, s ∈ recKeys (hookProcess ro os))
    ∧ recKeys (hookProcess (hookProcess ro os) os2)
        = recKeys (hookProcess ro os) := by
  refine ⟨fun s hs => mixtralProcessLogits_keys_mono k r ls s hs, ?_,
    fun s hs => hookProcess_keys_mono ro os s hs, ?_⟩
  · exact mixtralProcessLogits_keys_stable k _ ls2
      (fun j hj => mixtralProcessLogits_keys_layer k j r ls (hlen ▸ hj))
  · refine hookProcess_keys_stable _ os2 (fun p hp => ?_)
    have hm : p.1 ∈ os.map Prod.fst := by
      rw [← hkeys]
      exact List.mem_map.mpr ⟨p, hp, rfl⟩
    obtain ⟨q, hq, hq1⟩ := List.mem_map.mp hm
    exact hq1 ▸ hookProcess_keys_key ro os q hq

theorem C4_keys_stability_amended_witness :
    ([sampleLogits] : List Tensor2).length = ([sampleLogits] : List Tensor2).length
    ∧ sampleObs.map Prod.fst = sampleObs.map Prod.fst
    ∧ ((∀ s ∈ recKeys ([] : Record),
          s ∈ recKeys (mixtralProcessLogits 2 [] [sampleLogits]))
      ∧ recKeys (mixtralProcessLogits 2 (mixtralProcessLogits 2 [] [sampleLogits]) [sampleLogits])
          = recKeys (mixtralProcessLogits 2 [] [sampleLogits])
      ∧ (∀ s ∈ recKeys ([] : Record), s ∈ recKeys (hookProcess [] sampleObs))
      ∧ recKeys (hookProcess (hookProcess [] sampleObs) sampleObs)
          = recKeys (hookProcess [] sampleObs)) :=
  ⟨rfl, rfl,
    C4_keys_stability_amended 2 [] [sampleLogits] [sampleLogits] rfl [] sampleObs
      sampleObs rfl⟩

/-- The world after constructing two MixtralRunner instances in one fresh
process: neither `__init__` rebinds `self.activated_experts`, so both
instances resolve the attribute to the single class-level accumulator. -/
def twoMixtralWorld : PyWorld := constructMixtral (constructMixtral ⟨[], []⟩)

/-- C5 at the failing input: with two MixtralRunner instances, an `infer`
call performed through instance 0 changes the record observed through
instance 1 (from empty to containing `layer_0.router`), because both resolve
`activated_experts` to the shared class attribute of `MoERunner`
(runner.py:28) — the records of distinct instances are not disjoint. -/
theorem C5_shared_class_record :
    observedRecord twoMixtralWorld 1 = ([] : Record)
    ∧ observedRecord (mixtralCallWorld twoMixtralWorld 0 2 [sampleLogits]) 1
        ≠ observedRecord twoMixtralWorld 1 := by
  refine ⟨rfl, ?_⟩
  intro h
  have he : observedRecord (mixtralCallWorld twoMixtralWorld 0 2 [sampleLogits]) 1
      = mixtralProcessLogits 2 [] [sampleLogits] := rfl
  have hk : layerKey 0 ∈ recKeys (mixtralProcessLogits 2 [] [sampleLogits]) :=
    mixtralProcessLogits_keys_layer 2 0 [] [sampleLogits] (by norm_num)
  rw [← he, h] at hk
  exact absurd hk (List.not_mem_nil _)

/-- A freshly constructed OpenMoERunner (the hook returned its fresh empty
accumulator at attachment). -/
def openMoESample : RunnerState :=
  (openMoEInit 16 sampleProviderTok sampleCfg).1

/-- C6: `infer` returns the full cumulative record, not the current call's
delta, and prior entries are never mutated: for both variants the call
returns the record itself; after two calls on a freshly constructed runner
every per-layer sequence equals the first call's entry with exactly one entry
appended, so it has length 2 and its first entry is unchanged. -/
theorem C6_cumulative_append (st : RunnerState) (ls1 ls2 : List Tensor2)
    (h0 : st.record = []) (hlen : ls2.length = ls1.length)
    (sto : RunnerState) (os1 os2 : List (String × IndexTensor))
    (ho0 : sto.record = []) (hnd : (os1.map Prod.fst).Nodup)
    (hsame : os2.map Prod.fst = os1.map Prod.fst) :
    (∀ (st' : RunnerState) (ls : List Tensor2),
        (mixtralCall st' ls).2 = (mixtralCall st' ls).1.record)
    ∧ (∀ (st' : RunnerState) (os : List (String × IndexTensor)),
        (openMoECall st' os).2 = (openMoECall st' os).1.record)
    ∧ (∀ j, ∀ hj : j < ls1.length,
        recGet (mixtralCall (mixtralCall st ls1).1 ls2).1.record (layerKey j)
          = recGet (mixtralCall st ls1).1.record (layerKey j)
            ++ [deriveSelected st.cfg.numExpertsPerTok (ls2.get ⟨j, by omega⟩)]
        ∧ (recGet (mixtralCall (mixtralCall st ls1).1 ls2).1.record (layerKey j)).length = 2
        ∧ (recGet (mixtralCall (mixtralCall st ls1).1 ls2).1.record (layerKey j)).head?
            = (recGet (mixtralCall st ls1).1.record (layerKey j)).head?)
    ∧ (∀ p ∈ os2,
        recGet (openMoECall (openMoECall sto os1).1 os2).1.record p.1
          = recGet (openMoECall sto os1).1.record p.1 ++ [p.2]
        ∧ (recGet (openMoECall (openMoECall sto os1).1 os2).1.record p.1).length = 2
        ∧ (recGet (openMoECall (openMoECall sto os1).1 os2).1.record p.1).head?
            = (recGet (openMoECall sto os1).1.record p.1).head?) := by
  refine ⟨fun st' ls => rfl, fun st' os => rfl, ?_, ?_⟩
  · intro j hj
    have hj2 : j < ls2.length := by omega
    have e1 : recGet (mixtralCall st ls1).1.record (layerKey j)
        = [deriveSelected st.cfg.numExpertsPerTok (ls1.get ⟨j, hj⟩)] := by
      show recGet (mixtralProcessLogits st.cfg.numExpertsPerTok st.record ls1)
          (layerKey j) = _
      rw [mixtralProcessLogits_get_at st.cfg.numExpertsPerTok j st.record ls1 hj, h0]
      rfl
    have e2 : recGet (mixtralCall (mixtralCall st ls1).1 ls2).1.record (layerKey j)
        = recGet (mixtralCall st ls1).1.record (layerKey j)
          ++ [deriveSelected st.cfg.numExpertsPerTok (ls2.get ⟨j, hj2⟩)] :=
      mixtralProcessLogits_get_at st.cfg.numExpertsPerTok j
        (mixtralCall st ls1).1.record ls2 hj2
    refine ⟨e2, ?_, ?_⟩
    · rw [e2, e1]
      rfl
    · rw [e2, e1]
      rfl
  · intro p hp
    have hnd2 : (os2.map Prod.fst).Nodup := by
      rw [hsame]
      exact hnd
    have hm : p.1 ∈ os1.map Prod.fst := by
      rw [← hsame]
      exact List.mem_map.mpr ⟨p, hp, rfl⟩
    obtain ⟨q, hq, hq1⟩ := List.mem_map.mp hm
    have e1 : recGet (openMoECall sto os1).1.record p.1 = [q.2] := by
      show recGet (hookProcess sto.record os1) p.1 = _
      rw [← hq1, hookProcess_get_at sto.record os1 hnd q hq, ho0]
      rfl
    have e2 : recGet (openMoECall (openMoECall sto os1).1 os2).1.record p.1
        = recGet (openMoECall sto os1).1.record p.1 ++ [p.2] :=
      hookProcess_get_at (openMoECall sto os1).1.record os2 hnd2 p hp
    refine ⟨e2, ?_, ?_⟩
    · rw [e2, e1]
      rfl
    · rw [e2, e1]
      rfl

theorem C6_cumulative_append_witness :
    mixtralSample.record = []
    ∧ ([sampleLogits] : List Tensor2).length = ([sampleLogits] : List Tensor2).length
    ∧ openMoESample.record = []
    ∧ (sampleObs.map Prod.fst).Nodup
    ∧ sampleObs.map Prod.fst = sampleObs.map Prod.fst
    ∧ (recGet (mixtralCall (mixtralCall mixtralSample [sampleLogits]).1
        [sampleLogits]).1.record (layerKey 0)).length = 2 :=
  ⟨rfl, rfl, rfl, by decide, rfl,
    ((C6_cumulative_append mixtralSample [sampleLogits] [sampleLogits] rfl rfl
        openMoESample sampleObs sampleObs rfl (by decide) rfl).2.2.1 0
      (by norm_num)).2.1⟩

/-- C7: every index tensor appended by the OutputDerived variant selects
exactly `num_experts_per_tok` experts per token (given experts-per-token at
most the expert count, as in every supported configuration), and every
selected expert index lies in `[0, num_experts)`. -/
theorem C7_topk_shape_bounds (k n : ℕ) (r : Record) (ls : List Tensor2)
    (hkn : k ≤ n)
    (hrows : ∀ t ∈ ls, ∀ row ∈ t.data, row.length = n) :
    ∀ j, ∀ hj : j < ls.length,
      recGet (mixtralProcessLogits k r ls) (layerKey j)
        = recGet r (layerKey j) ++ [deriveSelected k (ls.get ⟨j, hj⟩)]
      ∧ ∀ row ∈ deriveSelected k (ls.get ⟨j, hj⟩),
          row.length = k ∧ ∀ e ∈ row, e < n := by
  intro j hj
  refine ⟨mixtralProcessLogits_get_at k j r ls hj, ?_⟩
  intro row hrow
  have ht : ls.get ⟨j, hj⟩ ∈ ls := List.get_mem ls j hj
  obtain ⟨srow, hsrow, rfl⟩ := List.mem_map.mp hrow
  obtain ⟨trow, htrow, rfl⟩ := List.mem_map.mp hsrow
  have hlen : trow.length = n := hrows _ ht trow htrow
  constructor
  · rw [length_topkRow, length_softmaxRow, hlen]
    exact Nat.min_eq_left hkn
  · intro e he
    have hb := mem_topkRow_lt he
    rwa [length_softmaxRow, hlen] at hb

theorem C7_topk_shape_bounds_witness :
    2 ≤ 3
    ∧ (∀ t ∈ ([sampleLogits] : List Tensor2), ∀ row ∈ t.data, row.length = 3)
    ∧ (recGet (mixtralProcessLogits 2 [] [sampleLogits]) (layerKey 0)
        = recGet ([] : Record) (layerKey 0) ++ [deriveSelected 2 sampleLogits]
      ∧ ∀ row ∈ deriveSelected 2 sampleLogits,
          row.length = 2 ∧ ∀ e ∈ row, e < 3) :=
  ⟨by decide, by decide,
    C7_topk_shape_bounds 2 3 [] [sampleLogits] (by decide) (by decide) 0
      (by norm_num)⟩

/-- C8: re-deriving the top-k selection from router scores is deterministic:
bit-identical score tensors yield identical selected-expert index tensors,
and the tie-break of the underlying top-k primitive is the fixed
lowest-index rule, with no randomness. -/
theorem C8_topk_deterministic (k : ℕ) (t1 t2 : Tensor2) (h : t1 = t2) :
    deriveSelected k t1 = deriveSelected k t2
    ∧ (∀ (xs : List ℚ) (i j : ℕ) (hjl : j < xs.length),
        i ∈ topkRow k xs → j ∉ topkRow k xs →
          ∃ hil : i < xs.length,
            xs.get ⟨j, hjl⟩ < xs.get ⟨i, hil⟩ ∨
              (xs.get ⟨i, hil⟩ = xs.get ⟨j, hjl⟩ ∧ i < j)) :=
  ⟨congrArg (deriveSelected k) h,
    fun _ _ _ hjl hi hj => topkRow_dominates hi hjl hj⟩

theorem C8_topk_deterministic_witness :
    sampleLogits = sampleLogits
    ∧ deriveSelected 2 sampleLogits = deriveSelected 2 sampleLogits :=
  ⟨rfl, (C8_topk_deterministic 2 sampleLogits sampleLogits rfl).1⟩

/-- C9 at the failing input: as written in the source, gradient tracking is
disabled on `OpenMoERunner.__call__` (the `@torch.no_grad()` decorator,
runner.py:77) but not on `MixtralRunner.__call__`, where the decorator is
commented out (runner.py:115) — contradicting the claim that both variants
run with gradient tracking disabled.  The remaining frame part holds: neither
call changes the model identifier, the tokenizer, or the model config. -/
theorem C9_inference_mode_code_state :
    mixtralCallGradDisabled = false
    ∧ openMoECallGradDisabled = true
    ∧ (∀ (st : RunnerState) (ls : List Tensor2),
        (mixtralCall st ls).1.modelName = st.modelName
        ∧ (mixtralCall st ls).1.tokenizer = st.tokenizer
        ∧ (mixtralCall st ls).1.cfg = st.cfg)
    ∧ (∀ (st : RunnerState) (os : List (String × IndexTensor)),
        (openMoECall st os).1.modelName = st.modelName
        ∧ (openMoECall st os).1.tokenizer = st.tokenizer
        ∧ (openMoECall st os).1.cfg = st.cfg) :=
  ⟨rfl, rfl, fun _ _ => ⟨rfl, rfl, rfl⟩, fun _ _ => ⟨rfl, rfl, rfl⟩⟩

/-- C10: MixtralRunner construction resolves the quantized weight source when
`use_quant` is set (the default) and the full-precision one otherwise, sets
the tokenizer's pad token equal to its eos token (whatever the provider
returned for either slot), and does so before the weight-loading provider
call in its effect trace. -/
theorem C10_mixtral_construction (seqLen : ℕ)
    (pt : String → ℕ → Tokenizer) (pc : ModelCfg) :
    (mixtralInit seqLen true pt pc).1.modelName = "TheBloke/mixtral-8x7b-v0.1-AWQ"
    ∧ (mixtralInit seqLen false pt pc).1.modelName = "mistralai/Mixtral-8x7B-v0.1"
    ∧ mixtralUseQuantDefault = true
    ∧ (∀ uq : Bool, (mixtralInit seqLen uq pt pc).1.tokenizer.padToken
        = (mixtralInit seqLen uq pt pc).1.tokenizer.eosToken)
    ∧ (∀ uq : Bool,
        Effect.setPadToken ∈ (mixtralInit seqLen uq pt pc).2
        ∧ Effect.loadModel (mixtralModelName uq) ∈ (mixtralInit seqLen uq pt pc).2
        ∧ (mixtralInit seqLen uq pt pc).2.indexOf Effect.setPadToken
            < (mixtralInit seqLen uq pt pc).2.indexOf
                (Effect.loadModel (mixtralModelName uq))) := by
  refine ⟨rfl, rfl, rfl, fun uq => rfl, fun uq => ⟨?_, ?_, ?_⟩⟩
  · show Effect.setPadToken ∈ [Effect.loadTokenizer (mixtralModelName uq),
      Effect.setPadToken, Effect.loadModel (mixtralModelName uq)]
    exact List.mem_cons_of_mem _ (List.mem_cons_self _ _)
  · show Effect.loadModel (mixtralModelName uq) ∈
      [Effect.loadTokenizer (mixtralModelName uq), Effect.setPadToken,
        Effect.loadModel (mixtralModelName uq)]
    exact List.mem_cons_of_mem _ (List.mem_cons_of_mem _ (List.mem_cons_self _ _))
  · show List.indexOf Effect.setPadToken
        [Effect.loadTokenizer (mixtralModelName uq), Effect.setPadToken,
          Effect.loadModel (mixtralModelName uq)]
      < List.indexOf (Effect.loadModel (mixtralModelName uq))
        [Effect.loadTokenizer (mixtralModelName uq), Effect.setPadToken,
          Effect.loadModel (mixtralModelName uq)]
    rw [List.indexOf_cons_ne _ (fun h => Effect.noConfusion h),
      List.indexOf_cons_self,
      List.indexOf_cons_ne _ (fun h => Effect.noConfusion h),
      List.indexOf_cons_ne _ (fun h => Effect.noConfusion h),
      List.indexOf_cons_self]
    omega
